import Mathlib

/-!
Verification of the PnL-reconstruction core of the DataUtility repository
(`DataUtility/tool.py`): the fill normalizer, the anchor locator, the
position ledger builder (`get_executions_from_bybit`) and the performance
analytics (`get_pnl_statistics`, `__print_execution_info`).

Conventions of the embedding:
* pandas/numpy float columns are modelled as `ℚ` (the claims under test are
  algebraic identities, not rounding statements); `exec_qty` is an `Int`
  because the source coerces it with `astype(int)`.
* a row of the raw executions DataFrame is a `Fill`; a row of the computed
  ledger columns (`pos_size`, `val_per_qty`, `exec_pl`, `exec_fee`,
  `total_pl`) is a `LedgerRow`.
* `np.round(_, 8)` on the backward position series is dropped: all its
  inputs are integers (integral sizes and an integral current position), on
  which rounding is the identity.
-/

namespace DataUtility

/-- One row of the raw executions DataFrame built in
`get_executions_from_bybit` (columns exec_id, exec_time, exec_type,
order_type, side, exec_price, exec_qty, exec_value, fee_rate, exec_fee). -/
structure Fill where
  exec_id : String
  exec_time : ℚ
  exec_type : String
  order_type : String
  side : String
  exec_price : ℚ
  exec_qty : Int
  exec_value : ℚ
  fee_rate : ℚ
  exec_fee : ℚ
deriving DecidableEq, Repr, Inhabited

/-- Comparison used by `df_execs.sort_values(by='exec_time', ascending=True)`. -/
def timeLE (a b : Fill) : Prop := a.exec_time ≤ b.exec_time

instance : DecidableRel timeLE := fun a b => inferInstanceAs (Decidable (a.exec_time ≤ b.exec_time))

instance : IsTotal Fill timeLE := ⟨fun a b => le_total a.exec_time b.exec_time⟩

instance : IsTrans Fill timeLE := ⟨fun _ _ _ h h2 => le_trans h h2⟩

/-- Row-wise `drop_duplicates(keep='last')`: a row is kept iff no row equal
to it (in every column) occurs later in the sequence. -/
def dropDuplicatesKeepLast : List Fill → List Fill
  | [] => []
  | x :: xs => if x ∈ xs then dropDuplicatesKeepLast xs
               else x :: dropDuplicatesKeepLast xs

/-- The normalization step of `get_executions_from_bybit` (lines 1219-1222):
sort ascending by `exec_time` (any comparison sort: pandas does not promise
stability for the default kind, and no claim depends on the order of
time-ties), then `drop_duplicates(keep='last')` over all columns. -/
def normalizeFills (fills : List Fill) : List Fill :=
  dropDuplicatesKeepLast (List.insertionSort timeLE fills)

/-- Mutable state carried across iterations of the profit-and-loss loop of
`get_executions_from_bybit`: `sum_size`, `avr_cost` and the `exec_pl`
variable, which is only assigned in the closing branch and therefore carries
its previous value through Funding and position-increasing fills. -/
structure BuildState where
  sum_size : ℚ
  avr_cost : ℚ
  exec_pl : ℚ
deriving DecidableEq, Repr, Inhabited

/-- One appended row of the computed ledger columns of
`get_executions_from_bybit`: `pos_size`, `val_per_qty`, `exec_pl`,
`exec_fee` (the recomputed one), `total_pl`. -/
structure LedgerRow where
  pos_size : ℚ
  val_per_qty : ℚ
  exec_pl : ℚ
  exec_fee : ℚ
  total_pl : ℚ
deriving DecidableEq, Repr, Inhabited

/-- One iteration of the loop at lines 1288-1344 of `tool.py`. -/
def stepFill (s : BuildState) (f : Fill) : BuildState × LedgerRow :=
  let i_size : ℚ := (f.exec_qty : ℚ)
  let i_cost : ℚ := f.exec_value
  let i_fee : ℚ := f.exec_fee
  if f.exec_type = "Funding" then
    (s, ⟨s.sum_size, s.avr_cost, s.exec_pl, -i_fee, -i_fee⟩)
  else if s.sum_size = 0 ∨ (0 < s.sum_size ∧ f.side = "Buy")
      ∨ (s.sum_size < 0 ∧ f.side = "Sell") then
    let temp_value : ℚ :=
      if f.side = "Buy" then s.avr_cost * s.sum_size + i_cost
      else s.avr_cost * s.sum_size - i_cost
    let new_size : ℚ :=
      if f.side = "Buy" then s.sum_size + i_size else s.sum_size - i_size
    let new_avr : ℚ := |temp_value / new_size|
    (⟨new_size, new_avr, s.exec_pl⟩,
     ⟨new_size, new_avr, s.exec_pl, -i_fee, -i_fee⟩)
  else
    let cost : ℚ := |i_cost / i_size|
    let pl_cost : ℚ := if f.side = "Buy" then cost - s.avr_cost else s.avr_cost - cost
    let pl_size : ℚ := if i_size ≤ |s.sum_size| then i_size else |s.sum_size|
    let e_pl : ℚ := pl_cost * pl_size
    let pl : ℚ := e_pl - i_fee
    let new_size : ℚ :=
      if f.side = "Buy" then s.sum_size + i_size else s.sum_size - i_size
    let new_avr : ℚ :=
      if (0 < new_size ∧ f.side = "Buy") ∨ (new_size < 0 ∧ f.side = "Sell")
      then cost else s.avr_cost
    (⟨new_size, new_avr, e_pl⟩, ⟨new_size, new_avr, e_pl, -i_fee, pl⟩)

/-- Folding `stepFill` over the fills, collecting the appended rows. -/
def buildSteps (s : BuildState) : List Fill → List LedgerRow
  | [] => []
  | f :: rest =>
      let r := stepFill s f
      r.2 :: buildSteps r.1 rest

/-- The ledger produced by the loop of `get_executions_from_bybit` starting
from the anchor state (`base_pos`, `base_avr`); the `exec_pl` loop variable
starts at `0`. -/
def buildLedger (basePos baseAvr : ℚ) (fills : List Fill) : List LedgerRow :=
  buildSteps ⟨basePos, baseAvr, 0⟩ fills

/-- Running sums with accumulator, as `np.cumsum` produces them. -/
def cumsumFrom (acc : ℚ) : List ℚ → List ℚ
  | [] => []
  | x :: xs => (acc + x) :: cumsumFrom (acc + x) xs

/-- `np.cumsum` over a rational column. -/
def cumsumQ (l : List ℚ) : List ℚ := cumsumFrom 0 l

/-- Column `sum_total_pl = np.cumsum(df_execs['total_pl'])` (line 1354). -/
def sumTotalPl (rows : List LedgerRow) : List ℚ :=
  cumsumQ (rows.map LedgerRow.total_pl)

/-- Line 1356: `start_bal = cur_bal - df_execs['sum_total_pl'].values[-1]`. -/
def startBal (curBal : ℚ) (rows : List LedgerRow) : ℚ :=
  curBal - (sumTotalPl rows).getLastD 0

/-- Line 1357: `df_execs['balance'] = df_execs['sum_total_pl'] + start_bal`. -/
def balanceCol (curBal : ℚ) (rows : List LedgerRow) : List ℚ :=
  (sumTotalPl rows).map (fun x => x + startBal curBal rows)

/-- Per-fill entry of the element-wise product at lines 1234-1235:
`np.where(exec_type == 'Trade', exec_qty, 0) * np.where(side == 'Sell', 1, -1)`.
Every non-Trade fill contributes `0`. -/
def fillContrib (f : Fill) : ℚ :=
  (if f.exec_type = "Trade" then (f.exec_qty : ℚ) else 0) *
    (if f.side = "Sell" then 1 else -1)

/-- Sum of the `fillContrib` entries of a fill list. -/
def contribSum (fills : List Fill) : ℚ := (fills.map fillContrib).sum

/-- The backward-reconstructed position series `calc_pos` (lines 1236-1241):
append the current position, reverse, cumulative-sum, reverse and drop the
appended cell, which leaves `calc_pos[i] = cur_size + Σ_{j ≥ i} contrib j` -
the position held just before fill `i`. -/
def calcPos (fills : List Fill) (curSize : ℚ) : List ℚ :=
  (List.range fills.length).map (fun i => curSize + contribSum (fills.drop i))

/-- Lines 1246-1249: the greatest index whose `exec_time` is at most
`from_ut`, and `0` when no such index exists. -/
def preIdx (fills : List Fill) (fromUt : ℚ) : ℕ :=
  (((List.range fills.length).filter
      (fun i => decide ((fills.getD i default).exec_time ≤ fromUt))).foldl max 0)

/-- Outcome of the anchor loop at lines 1251-1262. -/
inductive BaseResult where
  | flat (i : ℕ)
  | flip (i : ℕ)
  | notFound
deriving DecidableEq, Repr

/-- The descending anchor loop `for i in range(pre_idx, -1, -1)`: a flat
point (`calc_pos[i] == 0`) wins at each index, then a flip point
(`calc_pos[i] * calc_pos[i-1] < 0`, only checked for `i > 0`); when the loop
falls through, `base_idx` stays `-1`. -/
def findBaseAux (cp : List ℚ) : ℕ → BaseResult
  | 0 => if cp.getD 0 0 = 0 then .flat 0 else .notFound
  | i + 1 =>
      if cp.getD (i + 1) 0 = 0 then .flat (i + 1)
      else if cp.getD (i + 1) 0 * cp.getD i 0 < 0 then .flip (i + 1)
      else findBaseAux cp i

/-- The post-fetch core of `get_executions_from_bybit` up to the balance
column: normalize, reconstruct the backward position series, run the anchor
loop, slice, fold the ledger and attach balances.

The flip branch of the source reads the column `df_execs['price']`
(line 1261), which was never created - the DataFrame only has `exec_price` -
so selecting a flip anchor raises a `KeyError` that the enclosing handler
turns into a `None` return; it is modelled as an error value.  When no
anchor is found the source only prints a warning, keeps `base_idx = -1`
(so `iloc[base_idx:]` retains just the last row) and proceeds with the flat
defaults `base_pos = 0`, `base_avr = 0`.  The final window filter
`exec_time >= from_ut` and the fiat columns are not modelled; no claim
mentions them. -/
def getExecutionsCore (raw : List Fill) (curSize curBal fromUt : ℚ) :
    Except String (List LedgerRow × List ℚ) :=
  let dfe := normalizeFills raw
  let cp := calcPos dfe curSize
  match findBaseAux cp (preIdx dfe fromUt) with
  | .flip _ => .error "KeyError: column price does not exist"
  | .flat i =>
      let rows := buildLedger 0 0 (dfe.drop i)
      .ok (rows, balanceCol curBal rows)
  | .notFound =>
      let rows := buildLedger 0 0 (dfe.drop (dfe.length - 1))
      .ok (rows, balanceCol curBal rows)

/-- Helper of `runningMax`, carrying the maximum seen so far. -/
def runningMaxFrom (m : ℚ) : List ℚ → List ℚ
  | [] => []
  | x :: xs => max m x :: runningMaxFrom (max m x) xs

/-- `np.maximum.accumulate`: entry `k` is the maximum of the first `k + 1`
entries of the input. -/
def runningMax : List ℚ → List ℚ
  | [] => []
  | x :: xs => x :: runningMaxFrom x xs

/-- `np.argmin`: index of the first occurrence of the minimum (`0` on an
empty list, which the source never reaches). -/
def argminQ : List ℚ → ℕ
  | [] => 0
  | [_] => 0
  | x :: y :: rest =>
      let j := argminQ (y :: rest)
      if (y :: rest).getD j 0 < x then j + 1 else 0

/-- `idxmax` over the `count` column: index of the first occurrence of the
maximum. -/
def idxmaxNat : List ℕ → ℕ
  | [] => 0
  | [_] => 0
  | x :: y :: rest =>
      let j := idxmaxNat (y :: rest)
      if x < (y :: rest).getD j 0 then j + 1 else 0

/-- `itertools.groupby(_, key=p)`: maximal runs of consecutive entries
agreeing on the Boolean key `p`, each tagged with its key. -/
def groupByKey (p : ℚ → Bool) (l : List ℚ) : List (Bool × List ℚ) :=
  l.foldr
    (fun x acc =>
      match acc with
      | [] => [(p x, [x])]
      | (b, g) :: rest =>
          if p x = b then (b, x :: g) :: rest
          else (p x, [x]) :: (b, g) :: rest)
    []

/-- The grouping used by the source: `groupby(np_nonzero, key=lambda x: x > 0)`. -/
def groupBySign (l : List ℚ) : List (Bool × List ℚ) :=
  groupByKey (fun x => decide (0 < x)) l

/-- Lines 1719-1723 / 1725-1729: from the groups of one sign, build the
(count, sum) table and take the row of the first maximal count; `(0, 0)`
when there is no group of that sign. -/
def maxlenPick (gs : List (List ℚ)) : ℕ × ℚ :=
  if gs = [] then (0, 0)
  else
    let counts := gs.map List.length
    let j := idxmaxNat counts
    (counts.getD j 0, (gs.getD j []).sum)

/-- Groups of `groupBySign` whose key is `true`: the maximal runs of
consecutive strictly positive entries. -/
def winRuns (l : List ℚ) : List (List ℚ) :=
  ((groupBySign l).filter (fun g => g.1)).map (fun g => g.2)

/-- Groups of `groupBySign` whose key is `false`: the maximal runs of
consecutive non-positive entries. -/
def loseRuns (l : List ℚ) : List (List ℚ) :=
  ((groupBySign l).filter (fun g => !g.1)).map (fun g => g.2)

/-- `np_pnl[np_pnl > 0].sum()`. -/
def profitSumQ (l : List ℚ) : ℚ := (l.filter (fun x => decide (0 < x))).sum

/-- `np_pnl[np_pnl < 0].sum()`. -/
def lossSumQ (l : List ℚ) : ℚ := (l.filter (fun x => decide (x < 0))).sum

/-- Maximum of a rational column (`.max()`), `0` kept for the guarded empty
case. -/
def maxQList : List ℚ → ℚ
  | [] => 0
  | x :: xs => xs.foldl max x

/-- Minimum of a rational column (`.min()`), `0` kept for the guarded empty
case. -/
def minQList : List ℚ → ℚ
  | [] => 0
  | x :: xs => xs.foldl min x

/-- `np_cumsum = np_pnl.cumsum() + start_balance` (line 1683). -/
def balSeries (pnl : List ℚ) (startBalance : ℚ) : List ℚ :=
  (cumsumQ pnl).map (fun x => x + startBalance)

/-- `np_dd = np_cumsum - np.maximum.accumulate(np_cumsum)` (lines 1684-1685). -/
def ddSeries (pnl : List ℚ) (startBalance : ℚ) : List ℚ :=
  List.zipWith (fun c m => c - m) (balSeries pnl startBalance)
    (runningMax (balSeries pnl startBalance))

/-- `np_dd_ratio = np_dd / (np_cumsum - np_dd)` (line 1686). -/
def ddRelSeries (pnl : List ℚ) (startBalance : ℚ) : List ℚ :=
  List.zipWith (fun c d => d / (c - d)) (balSeries pnl startBalance)
    (ddSeries pnl startBalance)

/-- The dictionary filled in by `get_pnl_statistics` (initial values all
zero). -/
structure PnlStats where
  pf : ℚ := 0
  tCount : ℕ := 0
  tSum : ℚ := 0
  tMean : ℚ := 0
  maxdd : ℚ := 0
  maxddRel : ℚ := 0
  startBalance : ℚ := 0
  endBalance : ℚ := 0
  balRel : ℚ := 0
  pRel : ℚ := 0
  pCount : ℕ := 0
  pSum : ℚ := 0
  pMax : ℚ := 0
  pMean : ℚ := 0
  pMaxlenCount : ℕ := 0
  pMaxlenSum : ℚ := 0
  lRel : ℚ := 0
  lCount : ℕ := 0
  lSum : ℚ := 0
  lMax : ℚ := 0
  lMean : ℚ := 0
  lMaxlenCount : ℕ := 0
  lMaxlenSum : ℚ := 0
deriving DecidableEq, Repr, Inhabited

/-- `Tool.get_pnl_statistics` (lines 1632-1731).  The early return on an
empty pnl list yields the all-zero dictionary.  Conditional assignments of
the source (`if len_p > 0`, `if loss['sum'] != 0`, ...) are reproduced;
sums over empty selections agree with the zero initial values, so filters
and sums can be taken unconditionally where the source guards them. -/
def getPnlStatistics (pnl : List ℚ) (startBalance : ℚ) : PnlStats :=
  if pnl = [] then {}
  else
    let npProfit := pnl.filter (fun x => decide (0 < x))
    let npLoss := pnl.filter (fun x => decide (x < 0))
    let dd := ddSeries pnl startBalance
    let rel := ddRelSeries pnl startBalance
    let i := argminQ rel
    let pSum := npProfit.sum
    let lSum := npLoss.sum
    let nz := pnl.filter (fun x => decide (x ≠ 0))
    let pPick := maxlenPick (winRuns nz)
    let lPick := maxlenPick (loseRuns nz)
    let endBal := (balSeries pnl startBalance).getLastD 0
    { pf := if lSum ≠ 0 then |pSum / lSum| else 0
      tCount := pnl.length
      tSum := pnl.sum
      tMean := pnl.sum / (pnl.length : ℚ)
      maxdd := dd.getD i 0
      maxddRel := rel.getD i 0
      startBalance := startBalance
      endBalance := endBal
      balRel := if 0 < startBalance then (endBal - startBalance) / startBalance else 0
      pRel := if 0 < npProfit.length + npLoss.length then
          (npProfit.length : ℚ) / ((npProfit.length : ℚ) + (npLoss.length : ℚ)) else 0
      pCount := npProfit.length
      pSum := pSum
      pMax := maxQList npProfit
      pMean := if 0 < npProfit.length then pSum / (npProfit.length : ℚ) else 0
      pMaxlenCount := pPick.1
      pMaxlenSum := pPick.2
      lRel := if 0 < npProfit.length + npLoss.length then
          (npLoss.length : ℚ) / ((npProfit.length : ℚ) + (npLoss.length : ℚ)) else 0
      lCount := npLoss.length
      lSum := lSum
      lMax := minQList npLoss
      lMean := if 0 < npLoss.length then lSum / (npLoss.length : ℚ) else 0
      lMaxlenCount := lPick.1
      lMaxlenSum := lPick.2 }

/-- The maximum-drawdown block of `__print_execution_info`
(lines 1479-1485): from a balance series and the matching `exec_time`
column, the reported `(maxdd_ratio, maxdd, maxdd_ut)` triple. -/
def printExecMaxRisk (bal ut : List ℚ) : ℚ × ℚ × ℚ :=
  let mx := runningMax bal
  let dd := List.zipWith (fun c m => c - m) bal mx
  let rel := List.zipWith (fun c d => d / (c - d)) bal dd
  let i := argminQ rel
  (rel.getD i 0, dd.getD i 0, ut.getD i 0)

/-- Specification-side reading of a winning streak (section 8.6 of the
spec): the longest maximal run of consecutive entries of the series itself
that are uniformly strictly positive. -/
def specMaxWinStreakLen (l : List ℚ) : ℕ :=
  ((winRuns l).map List.length).foldr max 0

/-- Maximal runs of consecutive strictly negative entries: the groups of a
grouping by the key `x < 0` whose key is `true`. -/
def negRuns (l : List ℚ) : List (List ℚ) :=
  ((groupByKey (fun x => decide (x < 0)) l).filter (fun g => g.1)).map
    (fun g => g.2)

/-- Specification-side reading of a losing streak: the longest maximal run
of consecutive entries of the series itself that are uniformly strictly
negative. -/
def specMaxLossStreakLen (l : List ℚ) : ℕ :=
  ((negRuns l).map List.length).foldr max 0

/-! ### Supporting lemmas -/

theorem cumsumFrom_eq_map (l : List ℚ) :
    ∀ acc : ℚ, cumsumFrom acc l
      = (List.range l.length).map (fun i => acc + (l.take (i + 1)).sum) := by
  induction l with
  | nil => intro acc; rfl
  | cons x xs ih =>
      intro acc
      simp only [cumsumFrom, List.length_cons, List.range_succ_eq_map,
        List.map_cons, List.map_map]
      congr 1
      · simp
      · rw [ih (acc + x)]
        apply List.map_congr_left
        intro i _
        simp [List.take_succ_cons, add_assoc]

theorem cumsumFrom_ne_nil (l : List ℚ) (acc : ℚ) (h : l ≠ []) :
    cumsumFrom acc l ≠ [] := by
  cases l with
  | nil => exact absurd rfl h
  | cons x xs => simp [cumsumFrom]

theorem cumsumFrom_getLast? (l : List ℚ) :
    ∀ acc : ℚ, l ≠ [] → (cumsumFrom acc l).getLast? = some (acc + l.sum) := by
  induction l with
  | nil => intro acc h; exact absurd rfl h
  | cons x xs ih =>
      intro acc _
      cases hxs : xs with
      | nil => simp [cumsumFrom]
      | cons y ys =>
          have hne : xs ≠ [] := by simp [hxs]
          have h2 := ih (acc + x) hne
          rw [hxs] at h2
          simp only [cumsumFrom, List.sum_cons]
          rw [List.getLast?_cons_cons]
          calc ((cumsumFrom (acc + x) (y :: ys)).getLast?)
              = some (acc + x + (y :: ys).sum) := h2
            _ = some (acc + (x + (y :: ys).sum)) := by rw [add_assoc]

theorem cumsumQ_getLast? (l : List ℚ) (h : l ≠ []) :
    (cumsumQ l).getLast? = some l.sum := by
  rw [cumsumQ, cumsumFrom_getLast? l 0 h, zero_add]

theorem sumTotalPl_getLast? (rows : List LedgerRow) (h : rows ≠ []) :
    (sumTotalPl rows).getLast? = some ((rows.map LedgerRow.total_pl).sum) := by
  rw [sumTotalPl]
  exact cumsumQ_getLast? _ (by simpa using h)

theorem startBal_eq (curBal : ℚ) (rows : List LedgerRow) (h : rows ≠ []) :
    startBal curBal rows = curBal - (rows.map LedgerRow.total_pl).sum := by
  rw [startBal, List.getLastD_eq_getLast?, sumTotalPl_getLast? rows h]
  rfl

/-! ### Claim theorems -/

/-- C2 (confirmed).  For the ledger columns computed at lines 1352-1357 of
`get_executions_from_bybit`: the `sum_total_pl` column is, at every index,
the running sum of the per-entry `total_pl` values up to that index; the
`balance` column is `start_bal` plus `sum_total_pl` entrywise, where
`start_bal` is the externally supplied current balance minus the total
cumulative PnL; hence the balance at the last entry equals the supplied
current balance and the cumulative PnL at the last entry equals the final
balance minus `start_bal`. -/
theorem C2_conservation (rows : List LedgerRow) (curBal : ℚ) (h : rows ≠ []) :
    sumTotalPl rows
        = (List.range rows.length).map
            (fun i => ((rows.map LedgerRow.total_pl).take (i + 1)).sum)
      ∧ balanceCol curBal rows
        = (sumTotalPl rows).map (fun x => x + startBal curBal rows)
      ∧ (balanceCol curBal rows).getLast? = some curBal
      ∧ (sumTotalPl rows).getLast? = some (curBal - startBal curBal rows) := by
  refine ⟨?_, rfl, ?_, ?_⟩
  · rw [sumTotalPl, cumsumQ, cumsumFrom_eq_map]
    simp
  · rw [balanceCol, List.getLast?_map, sumTotalPl_getLast? rows h,
      startBal_eq curBal rows h]
    simp
  · rw [sumTotalPl_getLast? rows h, startBal_eq curBal rows h]
    simp

/-- Witness for C2 at a concrete two-entry ledger with current balance 100:
the hypothesis holds and the reconstructed balance ends exactly at 100. -/
theorem C2_conservation_witness :
    (([⟨0, 0, 0, 0, 5⟩, ⟨0, 0, 0, 0, -2⟩] : List LedgerRow) ≠ [])
      ∧ (balanceCol 100 [⟨0, 0, 0, 0, 5⟩, ⟨0, 0, 0, 0, -2⟩]).getLast? = some 100 :=
  ⟨by simp, (C2_conservation [⟨0, 0, 0, 0, 5⟩, ⟨0, 0, 0, 0, -2⟩] 100 (by simp)).2.2.1⟩

/-- C5 (confirmed).  A non-Funding fill that opens (`sum_size == 0`) or
increases the magnitude of the current position takes the first Trade
branch (lines 1302-1318): the new average cost is
`|(old_avg_cost * old_size ± fill_notional) / new_size|` with the notional
added for a Buy and subtracted for a Sell, the position moves by the signed
fill quantity, and the entry's PnL is `-fee` only. -/
theorem C5_increase (s : BuildState) (f : Fill)
    (hT : f.exec_type ≠ "Funding")
    (hInc : s.sum_size = 0 ∨ (0 < s.sum_size ∧ f.side = "Buy")
      ∨ (s.sum_size < 0 ∧ f.side = "Sell")) :
    (stepFill s f).2.val_per_qty
        = |(s.avr_cost * s.sum_size
              + (if f.side = "Buy" then f.exec_value else -f.exec_value))
            / (s.sum_size
              + (if f.side = "Buy" then (f.exec_qty : ℚ) else -(f.exec_qty : ℚ)))|
      ∧ (stepFill s f).2.total_pl = -f.exec_fee
      ∧ (stepFill s f).2.exec_fee = -f.exec_fee
      ∧ (stepFill s f).1.sum_size
        = s.sum_size + (if f.side = "Buy" then (f.exec_qty : ℚ) else -(f.exec_qty : ℚ)) := by
  rw [stepFill]
  rw [if_neg hT, if_pos hInc]
  by_cases hb : f.side = "Buy" <;> simp [hb, sub_eq_add_neg]

/-- Witness for C5: opening a long with Buy 10 at notional 1000 and fee 2
from a flat state gives average cost 100 and entry PnL -2. -/
theorem C5_increase_witness :
    ((0 : ℚ) = 0)
      ∧ (stepFill ⟨0, 0, 0⟩ ⟨"a", 1, "Trade", "Limit", "Buy", 100, 10, 1000, 0, 2⟩).2.val_per_qty = 100
      ∧ (stepFill ⟨0, 0, 0⟩ ⟨"a", 1, "Trade", "Limit", "Buy", 100, 10, 1000, 0, 2⟩).2.total_pl = -2 := by
  have h := C5_increase ⟨0, 0, 0⟩ ⟨"a", 1, "Trade", "Limit", "Buy", 100, 10, 1000, 0, 2⟩
    (by decide) (Or.inl rfl)
  refine ⟨rfl, ?_, ?_⟩
  · rw [h.1]; norm_num
  · rw [h.2.1]

/-- C6 (confirmed).  A Funding fill leaves the carried position state
unchanged and its ledger entry repeats `sum_size` and `avr_cost` and
records `total_pl = -fee` (lines 1293-1297); and in the backward position
reconstruction (lines 1234-1235) every non-Trade fill contributes zero. -/
theorem C6_funding :
    (∀ (s : BuildState) (f : Fill), f.exec_type = "Funding" →
        (stepFill s f).1 = s
          ∧ (stepFill s f).2.pos_size = s.sum_size
          ∧ (stepFill s f).2.val_per_qty = s.avr_cost
          ∧ (stepFill s f).2.total_pl = -f.exec_fee
          ∧ (stepFill s f).2.exec_fee = -f.exec_fee)
      ∧ (∀ f : Fill, f.exec_type ≠ "Trade" → fillContrib f = 0) := by
  constructor
  · intro s f hF
    rw [stepFill, if_pos hF]
    exact ⟨rfl, rfl, rfl, rfl, rfl⟩
  · intro f hT
    rw [fillContrib, if_neg hT, zero_mul]

/-- Witness for C6: a concrete Funding fill with fee 7 against a long
position of 3 at cost 50 leaves the state unchanged and books PnL -7, and
its backward position contribution is zero. -/
theorem C6_funding_witness :
    (stepFill ⟨3, 50, 1⟩ ⟨"f", 9, "Funding", "", "Sell", 0, 0, 0, 0, 7⟩).1 = ⟨3, 50, 1⟩
      ∧ (stepFill ⟨3, 50, 1⟩ ⟨"f", 9, "Funding", "", "Sell", 0, 0, 0, 0, 7⟩).2.total_pl = -7
      ∧ fillContrib ⟨"f", 9, "Funding", "", "Sell", 0, 0, 0, 0, 7⟩ = 0 := by
  have h := C6_funding.1 ⟨3, 50, 1⟩ ⟨"f", 9, "Funding", "", "Sell", 0, 0, 0, 0, 7⟩ rfl
  exact ⟨h.1, h.2.2.2.1, C6_funding.2 _ (by decide)⟩

/-- C3 counterexample.  The claim's example instantiated literally: from a
flat anchor, Buy 10 at price 100 and Sell 10 at price 110 with zero fees
(notional read as price times quantity, `exec_value` 1000 and 1100).  The
source books `avr_cost - cost = 100 - 110 = -10` per unit on the closing
Sell (line 1323), so the per-entry PnL column is `[0, -100]`, not the
claimed `[0, 100]`.  (Under the inverse-contract notional reading
`exec_value = qty/price` the result would be `[0, 1/110]`, also not
`[0, 100]`.) -/
theorem C3_counterexample :
    (buildLedger 0 0
        [⟨"a", 1, "Trade", "Limit", "Buy", 100, 10, 1000, 0, 0⟩,
         ⟨"b", 2, "Trade", "Limit", "Sell", 110, 10, 1100, 0, 0⟩]).map LedgerRow.total_pl
      = [0, -100]
      ∧ (buildLedger 0 0
          [⟨"a", 1, "Trade", "Limit", "Buy", 100, 10, 1000, 0, 0⟩,
           ⟨"b", 2, "Trade", "Limit", "Sell", 110, 10, 1100, 0, 0⟩]).map LedgerRow.total_pl
        ≠ [0, 100] := by
  constructor
  · simp +decide only [buildLedger, buildSteps, stepFill, List.map]
    norm_num
  · simp +decide only [buildLedger, buildSteps, stepFill, List.map]
    norm_num

/-- C3 amended.  For a non-Funding fill opposing a non-zero position the
closing branch (lines 1321-1330) realizes
`per_unit * min(fill_qty, |size|) - fee`, but per-unit PnL is computed in
value-per-quantity space with `cost = |exec_value / exec_qty|`: it is
`avg_cost - cost` when the position is long (fill side Sell) and
`cost - avg_cost` when it is short (fill side Buy) - the opposite
orientation, in price terms, of the claim's `(fill_price - avg_cost)` /
`(avg_cost - fill_price)`; the `exec_pl` column records the same quantity
before the fee.  The claim's example therefore yields per-entry PnL
`[0, -100]`, ending position 0 and ending balance `start - 100`. -/
theorem C3_amended (s : BuildState) (f : Fill)
    (hT : f.exec_type ≠ "Funding") (_hq : 0 < f.exec_qty)
    (hOp : (0 < s.sum_size ∧ f.side = "Sell") ∨ (s.sum_size < 0 ∧ f.side = "Buy")) :
    (stepFill s f).2.total_pl
        = (if f.side = "Buy" then |f.exec_value / (f.exec_qty : ℚ)| - s.avr_cost
            else s.avr_cost - |f.exec_value / (f.exec_qty : ℚ)|)
            * min (f.exec_qty : ℚ) |s.sum_size| - f.exec_fee
      ∧ (stepFill s f).2.exec_pl
        = (if f.side = "Buy" then |f.exec_value / (f.exec_qty : ℚ)| - s.avr_cost
            else s.avr_cost - |f.exec_value / (f.exec_qty : ℚ)|)
            * min (f.exec_qty : ℚ) |s.sum_size| := by
  have hNotInc : ¬(s.sum_size = 0 ∨ (0 < s.sum_size ∧ f.side = "Buy")
      ∨ (s.sum_size < 0 ∧ f.side = "Sell")) := by
    rcases hOp with ⟨hpos, hside⟩ | ⟨hneg, hside⟩
    · rintro (h0 | ⟨hp, hb⟩ | ⟨hn, hs⟩)
      · exact absurd h0 (ne_of_gt hpos)
      · rw [hside] at hb; exact absurd hb (by decide)
      · exact absurd hn (not_lt.mpr (le_of_lt hpos))
    · rintro (h0 | ⟨hp, hb⟩ | ⟨hn, hs⟩)
      · exact absurd h0 (ne_of_lt hneg)
      · exact absurd hp (not_lt.mpr (le_of_lt hneg))
      · rw [hside] at hs; exact absurd hs (by decide)
  rw [stepFill, if_neg hT, if_neg hNotInc]
  rcases hOp with ⟨_, hside⟩ | ⟨_, hside⟩ <;> simp only [hside, reduceIte] <;>
    exact ⟨by rw [min_def], by rw [min_def]⟩

/-- Witness for C3: closing a long of 10 at average value-cost 100 with a
Sell of 10 at notional 1100 and fee 0 realizes (100 - 110) * 10 = -100. -/
theorem C3_amended_witness :
    ((0 : ℚ) < 10 ∧ ("Sell" : String) = "Sell")
      ∧ (stepFill ⟨10, 100, 0⟩ ⟨"b", 2, "Trade", "Limit", "Sell", 110, 10, 1100, 0, 0⟩).2.total_pl
        = -100 := by
  refine ⟨⟨by norm_num, rfl⟩, ?_⟩
  have h := (C3_amended ⟨10, 100, 0⟩ ⟨"b", 2, "Trade", "Limit", "Sell", 110, 10, 1100, 0, 0⟩
    (by decide) (by decide) (Or.inl ⟨by norm_num, rfl⟩)).1
  rw [h]
  simp +decide only [reduceIte]
  norm_num

/-- C4 counterexample.  The claim's example [Buy 10@100, Sell 15@110] from
flat (zero fees, notional read as price times quantity): the source does
produce position -5 and resets the cost basis to 110, but the realized PnL
on the flipping fill is `(100 - 110) * 10 = -100`, not the claimed
`(110 - 100) * 10 = 1000` (which is also arithmetically `100`, not `1000`). -/
theorem C4_counterexample :
    (buildLedger 0 0
        [⟨"a", 1, "Trade", "Limit", "Buy", 100, 10, 1000, 0, 0⟩,
         ⟨"b", 2, "Trade", "Limit", "Sell", 110, 15, 1650, 0, 0⟩]).map LedgerRow.total_pl
      = [0, -100]
      ∧ (buildLedger 0 0
          [⟨"a", 1, "Trade", "Limit", "Buy", 100, 10, 1000, 0, 0⟩,
           ⟨"b", 2, "Trade", "Limit", "Sell", 110, 15, 1650, 0, 0⟩]).map LedgerRow.total_pl
        ≠ [0, 1000]
      ∧ (buildLedger 0 0
          [⟨"a", 1, "Trade", "Limit", "Buy", 100, 10, 1000, 0, 0⟩,
           ⟨"b", 2, "Trade", "Limit", "Sell", 110, 15, 1650, 0, 0⟩]).map LedgerRow.pos_size
        = [10, -5]
      ∧ (buildLedger 0 0
          [⟨"a", 1, "Trade", "Limit", "Buy", 100, 10, 1000, 0, 0⟩,
           ⟨"b", 2, "Trade", "Limit", "Sell", 110, 15, 1650, 0, 0⟩]).map LedgerRow.val_per_qty
        = [100, 110] := by
  refine ⟨?_, ?_, ?_, ?_⟩ <;>
    · simp +decide only [buildLedger, buildSteps, stepFill, List.map]
      norm_num

/-- C4 amended.  For a non-Funding fill that reduces through zero, the
position is updated by the full signed fill quantity, the average cost is
reset to the flipping fill's value-per-quantity `|exec_value / exec_qty|`
(in the example this coincides with the price 110), and the realized PnL is
per-unit PnL (value-space orientation: `avg_cost - cost` for the Sell
closing a long, `cost - avg_cost` for the Buy closing a short) times the
closed quantity `|old size|`, minus the fee; the example produces position
-5, cost basis 110 and per-entry PnL `(100 - 110) * 10 = -100` minus fee. -/
theorem C4_amended (s : BuildState) (f : Fill)
    (hT : f.exec_type ≠ "Funding")
    (hFlip : (0 < s.sum_size ∧ f.side = "Sell" ∧ s.sum_size - (f.exec_qty : ℚ) < 0)
      ∨ (s.sum_size < 0 ∧ f.side = "Buy" ∧ 0 < s.sum_size + (f.exec_qty : ℚ))) :
    (stepFill s f).1.sum_size
        = s.sum_size + (if f.side = "Buy" then (f.exec_qty : ℚ) else -(f.exec_qty : ℚ))
      ∧ (stepFill s f).2.val_per_qty = |f.exec_value / (f.exec_qty : ℚ)|
      ∧ (stepFill s f).2.total_pl
        = (if f.side = "Buy" then |f.exec_value / (f.exec_qty : ℚ)| - s.avr_cost
            else s.avr_cost - |f.exec_value / (f.exec_qty : ℚ)|) * |s.sum_size|
          - f.exec_fee := by
  have hNotInc : ¬(s.sum_size = 0 ∨ (0 < s.sum_size ∧ f.side = "Buy")
      ∨ (s.sum_size < 0 ∧ f.side = "Sell")) := by
    rcases hFlip with ⟨hpos, hside, _⟩ | ⟨hneg, hside, _⟩
    · rintro (h0 | ⟨hp, hb⟩ | ⟨hn, hs⟩)
      · exact absurd h0 (ne_of_gt hpos)
      · rw [hside] at hb; exact absurd hb (by decide)
      · exact absurd hn (not_lt.mpr (le_of_lt hpos))
    · rintro (h0 | ⟨hp, hb⟩ | ⟨hn, hs⟩)
      · exact absurd h0 (ne_of_lt hneg)
      · exact absurd hp (not_lt.mpr (le_of_lt hneg))
      · rw [hside] at hs; exact absurd hs (by decide)
  rw [stepFill, if_neg hT, if_neg hNotInc]
  rcases hFlip with ⟨hpos, hside, hflip⟩ | ⟨hneg, hside, hflip⟩
  · have hBuy : ¬(f.side = "Buy") := by rw [hside]; exact (by decide)
    have hlt : ¬((f.exec_qty : ℚ) ≤ |s.sum_size|) := by
      rw [abs_of_pos hpos]; linarith
    simp only [if_neg hBuy, if_neg hlt]
    rw [if_pos (Or.inr ⟨hflip, hside⟩)]
    simp [sub_eq_add_neg]
  · have hBuySide : f.side = "Buy" := hside
    have hlt : ¬((f.exec_qty : ℚ) ≤ |s.sum_size|) := by
      rw [abs_of_neg hneg]; linarith
    simp only [if_pos hBuySide, if_neg hlt]
    rw [if_pos (Or.inl ⟨hflip, hside⟩)]
    simp [sub_eq_add_neg]

/-- Witness for C4: the claim's own example fills, via `C4_amended`. -/
theorem C4_amended_witness :
    ((0 : ℚ) < 10 ∧ (10 : ℚ) - 15 < 0)
      ∧ (stepFill ⟨10, 100, 0⟩ ⟨"b", 2, "Trade", "Limit", "Sell", 110, 15, 1650, 0, 0⟩).1.sum_size = -5
      ∧ (stepFill ⟨10, 100, 0⟩ ⟨"b", 2, "Trade", "Limit", "Sell", 110, 15, 1650, 0, 0⟩).2.val_per_qty = 110
      ∧ (stepFill ⟨10, 100, 0⟩ ⟨"b", 2, "Trade", "Limit", "Sell", 110, 15, 1650, 0, 0⟩).2.total_pl = -100 := by
  have h := C4_amended ⟨10, 100, 0⟩ ⟨"b", 2, "Trade", "Limit", "Sell", 110, 15, 1650, 0, 0⟩
    (by decide) (Or.inl ⟨by norm_num, rfl, by norm_num⟩)
  refine ⟨⟨by norm_num, by norm_num⟩, ?_, ?_, ?_⟩
  · rw [h.1]; simp +decide only [reduceIte]; norm_num
  · rw [h.2.1]; norm_num
  · rw [h.2.2]; simp +decide only [reduceIte]; norm_num

/-- C1 counterexample.  A concrete history with no flat or flip point at or
before the window start (one Buy fill, current position 20, so the
reconstructed pre-fill position is 10 everywhere): the anchor loop reports
not-found, yet `get_executions_from_bybit` raises nothing - it returns a
reconstructed ledger (built from the last fill with an assumed-flat base),
so no `AnchorNotFoundError` is signalled. -/
theorem C1_counterexample :
    (findBaseAux (calcPos (normalizeFills [⟨"a", 5, "Trade", "Limit", "Buy", 100, 10, 1000, 2, 2⟩]) 20)
        (preIdx (normalizeFills [⟨"a", 5, "Trade", "Limit", "Buy", 100, 10, 1000, 2, 2⟩]) 10)
      = BaseResult.notFound)
      ∧ getExecutionsCore [⟨"a", 5, "Trade", "Limit", "Buy", 100, 10, 1000, 2, 2⟩] 20 50 10
        = .ok ([⟨10, 100, 0, -2, -2⟩], [50]) := by
  constructor
  · simp +decide [normalizeFills, dropDuplicatesKeepLast, List.insertionSort, List.orderedInsert,
      calcPos, preIdx, findBaseAux, fillContrib, contribSum, timeLE]
    norm_num
  · simp +decide [getExecutionsCore, normalizeFills, dropDuplicatesKeepLast, List.insertionSort,
      List.orderedInsert, calcPos, preIdx, findBaseAux, fillContrib, contribSum, timeLE,
      buildLedger, buildSteps, stepFill, balanceCol, sumTotalPl, startBal, cumsumQ, cumsumFrom]
    norm_num

/-- C1 amended.  When the anchor loop finds neither a flat nor a flip point
within the lookback buffer, the locator does not signal any error: the
source prints a warning, keeps `base_idx = -1`, and reconstruction proceeds
over `iloc[-1:]` - the last fill only - with an assumed-flat starting state
(`base_pos = 0`, `base_avr = 0`). -/
theorem C1_amended (raw : List Fill) (curSize curBal fromUt : ℚ)
    (h : findBaseAux (calcPos (normalizeFills raw) curSize)
        (preIdx (normalizeFills raw) fromUt) = BaseResult.notFound) :
    getExecutionsCore raw curSize curBal fromUt
      = .ok (buildLedger 0 0 ((normalizeFills raw).drop ((normalizeFills raw).length - 1)),
          balanceCol curBal
            (buildLedger 0 0 ((normalizeFills raw).drop ((normalizeFills raw).length - 1)))) := by
  rw [getExecutionsCore]
  rw [h]

/-- Witness for C1: the counterexample's single-fill history satisfies the
not-found hypothesis and the pipeline yields the assumed-flat ledger. -/
theorem C1_amended_witness :
    (findBaseAux (calcPos (normalizeFills [⟨"a", 5, "Trade", "Limit", "Buy", 100, 10, 1000, 2, 2⟩]) 20)
        (preIdx (normalizeFills [⟨"a", 5, "Trade", "Limit", "Buy", 100, 10, 1000, 2, 2⟩]) 10)
      = BaseResult.notFound)
      ∧ getExecutionsCore [⟨"a", 5, "Trade", "Limit", "Buy", 100, 10, 1000, 2, 2⟩] 20 50 10
        = .ok (buildLedger 0 0 [⟨"a", 5, "Trade", "Limit", "Buy", 100, 10, 1000, 2, 2⟩],
            balanceCol 50 (buildLedger 0 0 [⟨"a", 5, "Trade", "Limit", "Buy", 100, 10, 1000, 2, 2⟩])) := by
  have hnf : findBaseAux (calcPos (normalizeFills [⟨"a", 5, "Trade", "Limit", "Buy", 100, 10, 1000, 2, 2⟩]) 20)
      (preIdx (normalizeFills [⟨"a", 5, "Trade", "Limit", "Buy", 100, 10, 1000, 2, 2⟩]) 10)
      = BaseResult.notFound := by
    simp +decide [normalizeFills, dropDuplicatesKeepLast, List.insertionSort, List.orderedInsert,
      calcPos, preIdx, findBaseAux, fillContrib, contribSum, timeLE]
    norm_num
  refine ⟨hnf, ?_⟩
  rw [C1_amended _ _ _ _ hnf]
  norm_num [normalizeFills, dropDuplicatesKeepLast, List.insertionSort, List.orderedInsert]

theorem mem_dropDuplicatesKeepLast (l : List Fill) (f : Fill) :
    f ∈ dropDuplicatesKeepLast l ↔ f ∈ l := by
  induction l with
  | nil => simp [dropDuplicatesKeepLast]
  | cons x xs ih =>
      by_cases hx : x ∈ xs
      · rw [dropDuplicatesKeepLast, if_pos hx]
        rw [ih]
        constructor
        · intro h; exact List.mem_cons_of_mem x h
        · intro h
          rcases List.mem_cons.mp h with h1 | h2
          · rw [h1]; exact hx
          · exact h2
      · rw [dropDuplicatesKeepLast, if_neg hx]
        simp [ih]

theorem nodup_dropDuplicatesKeepLast (l : List Fill) :
    (dropDuplicatesKeepLast l).Nodup := by
  induction l with
  | nil => simp [dropDuplicatesKeepLast]
  | cons x xs ih =>
      by_cases hx : x ∈ xs
      · rw [dropDuplicatesKeepLast, if_pos hx]; exact ih
      · rw [dropDuplicatesKeepLast, if_neg hx]
        exact List.Nodup.cons (fun hmem => hx ((mem_dropDuplicatesKeepLast xs x).mp hmem)) ih

theorem sublist_dropDuplicatesKeepLast (l : List Fill) :
    (dropDuplicatesKeepLast l).Sublist l := by
  induction l with
  | nil => simp [dropDuplicatesKeepLast]
  | cons x xs ih =>
      by_cases hx : x ∈ xs
      · rw [dropDuplicatesKeepLast, if_pos hx]
        exact List.Sublist.cons x ih
      · rw [dropDuplicatesKeepLast, if_neg hx]
        exact List.Sublist.cons₂ x ih

/-- C7 counterexample.  Two fills sharing the identifier "x" but differing
in price survive normalization together: `drop_duplicates()` with no
`subset` argument compares entire rows, so it does not deduplicate by
identifier, and more than one fill per identifier can remain - refuting
"at most one fill remains per identifier". -/
theorem C7_counterexample :
    ((normalizeFills
        [⟨"x", 1, "Trade", "Limit", "Buy", 100, 1, 100, 0, 0⟩,
         ⟨"x", 1, "Trade", "Limit", "Buy", 200, 1, 200, 0, 0⟩]).filter
      (fun f => decide (f.exec_id = "x"))).length = 2 := by decide

/-- C7 amended.  Normalization sorts the fills non-decreasingly by
timestamp and removes only exact duplicate records (rows equal in every
column), keeping one copy of each: the output is sorted, duplicate-free as
whole records, and contains exactly the distinct records of the input;
fills that share an identifier but differ in any field all remain. -/
theorem C7_amended (fills : List Fill) :
    List.Pairwise timeLE (normalizeFills fills)
      ∧ (normalizeFills fills).Nodup
      ∧ (∀ f : Fill, f ∈ normalizeFills fills ↔ f ∈ fills) := by
  refine ⟨?_, nodup_dropDuplicatesKeepLast _, ?_⟩
  · exact List.Pairwise.sublist (sublist_dropDuplicatesKeepLast _)
      (List.sorted_insertionSort timeLE fills)
  · intro f
    rw [normalizeFills, mem_dropDuplicatesKeepLast]
    exact (List.perm_insertionSort timeLE fills).mem_iff


theorem le_foldl_max (l : List ℚ) : ∀ m : ℚ, m ≤ l.foldl max m := by
  induction l with
  | nil => intro m; exact le_refl m
  | cons x xs ih =>
      intro m
      exact le_trans (le_max_left m x) (ih (max m x))

theorem mem_le_foldl_max (l : List ℚ) : ∀ (m x : ℚ), x ∈ l → x ≤ l.foldl max m := by
  induction l with
  | nil => intro m x hx; exact absurd hx (List.not_mem_nil x)
  | cons y ys ih =>
      intro m x hx
      rcases List.mem_cons.mp hx with h1 | h2
      · rw [h1]
        exact le_trans (le_max_right m y) (le_foldl_max ys (max m y))
      · exact ih (max m y) x h2

theorem foldl_max_mem_or (l : List ℚ) : ∀ m : ℚ, l.foldl max m = m ∨ l.foldl max m ∈ l := by
  induction l with
  | nil => intro m; exact Or.inl rfl
  | cons x xs ih =>
      intro m
      rcases ih (max m x) with h | h
      · rcases max_choice m x with hm | hm
        · exact Or.inl (by rw [List.foldl_cons, h, hm])
        · refine Or.inr ?_
          rw [List.foldl_cons, h, hm]
          exact List.mem_cons_self x xs
      · exact Or.inr (List.mem_cons_of_mem x h)

theorem runningMaxFrom_getD (xs : List ℚ) :
    ∀ (m : ℚ) (k : ℕ), k < xs.length →
      (runningMaxFrom m xs).getD k 0 = (xs.take (k + 1)).foldl max m := by
  induction xs with
  | nil => intro m k hk; exact absurd hk (by simp)
  | cons x xs ih =>
      intro m k hk
      cases k with
      | zero => simp [runningMaxFrom]
      | succ k2 =>
          have hk2 : k2 < xs.length := by simpa using hk
          simp only [runningMaxFrom, List.getD_cons_succ, List.take_succ_cons, List.foldl_cons]
          exact ih (max m x) k2 hk2

theorem runningMax_cons_getD (x : ℚ) (xs : List ℚ) :
    ∀ k : ℕ, k < xs.length + 1 →
      (runningMax (x :: xs)).getD k 0 = (xs.take k).foldl max x := by
  intro k hk
  cases k with
  | zero => simp [runningMax]
  | succ k2 =>
      have hk2 : k2 < xs.length := by omega
      simp only [runningMax, List.getD_cons_succ]
      exact runningMaxFrom_getD xs x k2 hk2

theorem runningMax_dominates (l : List ℚ) (j k : ℕ) (hjk : j ≤ k) (hk : k < l.length) :
    l.getD j 0 ≤ (runningMax l).getD k 0 := by
  cases l with
  | nil => exact absurd hk (by simp)
  | cons x xs =>
      rw [runningMax_cons_getD x xs k (by simpa using hk)]
      cases j with
      | zero => exact le_foldl_max (xs.take k) x
      | succ j2 =>
          have hj2 : j2 < k := by omega
          have hj2len : j2 < xs.length := by
            have : k ≤ xs.length := by simpa using Nat.lt_succ_iff.mp (by simpa using hk)
            omega
          have hmem : xs.getD j2 0 ∈ xs.take k := by
            have hb : j2 < (xs.take k).length := by
              rw [List.length_take]; omega
            have : (xs.take k).getD j2 0 = xs.getD j2 0 := by
              rw [List.getD_eq_getElem _ _ hb, List.getD_eq_getElem _ _ hj2len]
              exact List.getElem_take xs
            rw [← this]
            rw [List.getD_eq_getElem _ _ hb]
            exact List.getElem_mem hb
          rw [List.getD_cons_succ]
          exact mem_le_foldl_max (xs.take k) x (xs.getD j2 0) hmem

theorem runningMax_mem_take (l : List ℚ) (k : ℕ) (hk : k < l.length) :
    (runningMax l).getD k 0 ∈ l.take (k + 1) := by
  cases l with
  | nil => exact absurd hk (by simp)
  | cons x xs =>
      rw [runningMax_cons_getD x xs k (by simpa using hk), List.take_succ_cons]
      rcases foldl_max_mem_or (xs.take k) x with h | h
      · rw [h]; exact List.mem_cons_self x (xs.take k)
      · exact List.mem_cons_of_mem x h

theorem argminQ_le (l : List ℚ) : ∀ k, k < l.length → l.getD (argminQ l) 0 ≤ l.getD k 0 := by
  induction l with
  | nil => intro k hk; exact absurd hk (by simp)
  | cons x xs ih =>
      cases xs with
      | nil =>
          intro k hk
          have : k = 0 := by simpa using hk
          rw [this]
          exact le_refl _
      | cons y rest =>
          intro k hk
          by_cases hc : (y :: rest).getD (argminQ (y :: rest)) 0 < x
          · rw [show argminQ (x :: y :: rest)
                = (if (y :: rest).getD (argminQ (y :: rest)) 0 < x
                    then argminQ (y :: rest) + 1 else 0) from rfl, if_pos hc]
            rw [List.getD_cons_succ]
            cases k with
            | zero => exact le_of_lt hc
            | succ k2 =>
                rw [List.getD_cons_succ]
                exact ih k2 (by simpa using hk)
          · rw [show argminQ (x :: y :: rest)
                = (if (y :: rest).getD (argminQ (y :: rest)) 0 < x
                    then argminQ (y :: rest) + 1 else 0) from rfl, if_neg hc]
            cases k with
            | zero => exact le_refl _
            | succ k2 =>
                rw [List.getD_cons_zero, List.getD_cons_succ]
                exact le_trans (not_lt.mp hc) (ih k2 (by simpa using hk))

theorem argminQ_first (l : List ℚ) :
    ∀ k, k < argminQ l → l.getD (argminQ l) 0 < l.getD k 0 := by
  induction l with
  | nil => intro k hk; simp [argminQ] at hk
  | cons x xs ih =>
      cases xs with
      | nil => intro k hk; simp [argminQ] at hk
      | cons y rest =>
          intro k hk
          by_cases hc : (y :: rest).getD (argminQ (y :: rest)) 0 < x
          · rw [show argminQ (x :: y :: rest)
                = (if (y :: rest).getD (argminQ (y :: rest)) 0 < x
                    then argminQ (y :: rest) + 1 else 0) from rfl, if_pos hc] at hk ⊢
            rw [List.getD_cons_succ]
            cases k with
            | zero => exact hc
            | succ k2 =>
                rw [List.getD_cons_succ]
                exact ih k2 (by omega)
          · rw [show argminQ (x :: y :: rest)
                = (if (y :: rest).getD (argminQ (y :: rest)) 0 < x
                    then argminQ (y :: rest) + 1 else 0) from rfl, if_neg hc] at hk
            exact absurd hk (by omega)

theorem idxmaxNat_getD (l : List ℕ) : l.getD (idxmaxNat l) 0 = l.foldr max 0 := by
  induction l with
  | nil => rfl
  | cons x xs ih =>
      cases xs with
      | nil => simp [idxmaxNat]
      | cons y rest =>
          by_cases hc : x < (y :: rest).getD (idxmaxNat (y :: rest)) 0
          · rw [show idxmaxNat (x :: y :: rest)
                = (if x < (y :: rest).getD (idxmaxNat (y :: rest)) 0
                    then idxmaxNat (y :: rest) + 1 else 0) from rfl, if_pos hc]
            rw [List.getD_cons_succ, ih, List.foldr_cons]
            rw [ih] at hc
            exact (Nat.max_eq_right (le_of_lt hc)).symm
          · rw [show idxmaxNat (x :: y :: rest)
                = (if x < (y :: rest).getD (idxmaxNat (y :: rest)) 0
                    then idxmaxNat (y :: rest) + 1 else 0) from rfl, if_neg hc]
            rw [List.getD_cons_zero, List.foldr_cons]
            rw [ih] at hc
            exact (Nat.max_eq_left (not_lt.mp hc)).symm

theorem cumsumFrom_length (l : List ℚ) : ∀ acc, (cumsumFrom acc l).length = l.length := by
  induction l with
  | nil => intro acc; rfl
  | cons x xs ih => intro acc; simp [cumsumFrom, ih]

theorem balSeries_length (pnl : List ℚ) (b : ℚ) : (balSeries pnl b).length = pnl.length := by
  simp [balSeries, cumsumQ, cumsumFrom_length]

theorem runningMaxFrom_length (xs : List ℚ) : ∀ m, (runningMaxFrom m xs).length = xs.length := by
  induction xs with
  | nil => intro m; rfl
  | cons x xs ih => intro m; simp [runningMaxFrom, ih]

theorem runningMax_length (l : List ℚ) : (runningMax l).length = l.length := by
  cases l with
  | nil => rfl
  | cons x xs => simp [runningMax, runningMaxFrom_length]

theorem zipWith_getD (f : ℚ → ℚ → ℚ) (a b : List ℚ) (k : ℕ)
    (ha : k < a.length) (hb : k < b.length) :
    (List.zipWith f a b).getD k 0 = f (a.getD k 0) (b.getD k 0) := by
  have hz : k < (List.zipWith f a b).length := by
    rw [List.length_zipWith]; omega
  rw [List.getD_eq_getElem _ _ hz, List.getD_eq_getElem _ _ ha, List.getD_eq_getElem _ _ hb]
  exact List.getElem_zipWith

theorem ddSeries_getD (pnl : List ℚ) (b : ℚ) (k : ℕ) (hk : k < pnl.length) :
    (ddSeries pnl b).getD k 0
      = (balSeries pnl b).getD k 0 - (runningMax (balSeries pnl b)).getD k 0 := by
  rw [ddSeries]
  exact zipWith_getD _ _ _ k (by rw [balSeries_length]; exact hk)
    (by rw [runningMax_length, balSeries_length]; exact hk)

theorem ddSeries_nonpos (pnl : List ℚ) (b : ℚ) (k : ℕ) (hk : k < pnl.length) :
    (ddSeries pnl b).getD k 0 ≤ 0 := by
  rw [ddSeries_getD pnl b k hk]
  have := runningMax_dominates (balSeries pnl b) k k (le_refl k)
    (by rw [balSeries_length]; exact hk)
  linarith

theorem ddRelSeries_length (pnl : List ℚ) (b : ℚ) :
    (ddRelSeries pnl b).length = pnl.length := by
  rw [ddRelSeries, List.length_zipWith, ddSeries, List.length_zipWith,
    runningMax_length, balSeries_length]
  omega

/-- C8 (confirmed).  The profit factor computed by `get_pnl_statistics`
(lines 1711-1712) equals the absolute value of the sum of the strictly
positive entries divided by the sum of the strictly negative entries, for
every per-entry PnL list - including, with no division fault, the case of a
zero loss sum, where it is exactly 0; the profit sum 300 with loss sum -150
gives exactly 2. -/
theorem C8_profit_factor :
    (∀ (pnl : List ℚ) (b : ℚ),
        (getPnlStatistics pnl b).pf = |profitSumQ pnl / lossSumQ pnl|)
      ∧ (getPnlStatistics [300, -150] 0).pf = 2
      ∧ (getPnlStatistics [300, 100] 0).pf = 0 := by
  refine ⟨?_, ?_, ?_⟩
  · intro pnl b
    by_cases h : pnl = []
    · subst h
      simp [getPnlStatistics, profitSumQ, lossSumQ]
    · simp only [getPnlStatistics, if_neg h, profitSumQ, lossSumQ]
      split_ifs with hl
      · rfl
      · push_neg at hl
        rw [hl, div_zero, abs_zero]
  · simp +decide [getPnlStatistics]
    norm_num
  · simp +decide [getPnlStatistics]

/-- C9 counterexample.  On the claim's own balance series [100, 120, 90,
130] the reported maximum-risk ratio is `dd / (balance - dd) = -30 / (90 -
(-30)) = -30/120 = -1/4`, not the claimed `-30/90`: the claim's example
value contradicts its (and the code's) own formula. -/
theorem C9_counterexample :
    (getPnlStatistics [100, 20, -30, 40] 0).maxddRel = -1/4
      ∧ ¬((getPnlStatistics [100, 20, -30, 40] 0).maxddRel = -30 / 90) := by
  have h : (getPnlStatistics [100, 20, -30, 40] 0).maxddRel = -1/4 := by
    simp +decide [getPnlStatistics, ddRelSeries, ddSeries, balSeries, cumsumQ, cumsumFrom,
      runningMax, runningMaxFrom, argminQ]
    norm_num
  refine ⟨h, ?_⟩
  rw [h]
  norm_num

/-- C9 amended.  For every PnL list and start balance, the analytics form
the balance series, its running maximum (characterized here: each entry
dominates every earlier balance and is attained among the first k+1
balances), the everywhere non-positive drawdown `balance - runningMax`, the
ratio `dd / (balance - dd)`, and report the drawdown and ratio at the first
index minimizing the ratio; on the example series [100, 120, 90, 130] the
drawdowns are [0, 0, -30, 0], the reported index is 2 with amount -30 and
ratio -30/120 (not -30/90), and `__print_execution_info` reports that
index's timestamp. -/
theorem C9_amended :
    (∀ (pnl : List ℚ) (b : ℚ),
        (∀ k, k < pnl.length → (ddSeries pnl b).getD k 0 ≤ 0)
          ∧ (getPnlStatistics pnl b).maxdd
            = (ddSeries pnl b).getD (argminQ (ddRelSeries pnl b)) 0
          ∧ (getPnlStatistics pnl b).maxddRel
            = (ddRelSeries pnl b).getD (argminQ (ddRelSeries pnl b)) 0
          ∧ (∀ k, k < pnl.length →
              (ddRelSeries pnl b).getD (argminQ (ddRelSeries pnl b)) 0
                ≤ (ddRelSeries pnl b).getD k 0)
          ∧ (∀ k, k < argminQ (ddRelSeries pnl b) →
              (ddRelSeries pnl b).getD (argminQ (ddRelSeries pnl b)) 0
                < (ddRelSeries pnl b).getD k 0)
          ∧ (∀ k, k < pnl.length →
              (runningMax (balSeries pnl b)).getD k 0 ∈ (balSeries pnl b).take (k + 1)
                ∧ ∀ j, j ≤ k → (balSeries pnl b).getD j 0
                    ≤ (runningMax (balSeries pnl b)).getD k 0))
      ∧ ddSeries [100, 20, -30, 40] 0 = [0, 0, -30, 0]
      ∧ argminQ (ddRelSeries [100, 20, -30, 40] 0) = 2
      ∧ (getPnlStatistics [100, 20, -30, 40] 0).maxdd = -30
      ∧ (getPnlStatistics [100, 20, -30, 40] 0).maxddRel = -30 / 120
      ∧ printExecMaxRisk [100, 120, 90, 130] [11, 22, 33, 44] = (-30/120, -30, 33) := by
  refine ⟨?_, ?_, ?_, ?_, ?_, ?_⟩
  · intro pnl b
    refine ⟨fun k hk => ddSeries_nonpos pnl b k hk, ?_, ?_, ?_, ?_, ?_⟩
    · by_cases h : pnl = []
      · subst h; simp [getPnlStatistics, ddSeries, balSeries, cumsumQ, cumsumFrom, runningMax]
      · simp only [getPnlStatistics, if_neg h]
    · by_cases h : pnl = []
      · subst h; simp [getPnlStatistics, ddRelSeries, ddSeries, balSeries, cumsumQ,
          cumsumFrom, runningMax]
      · simp only [getPnlStatistics, if_neg h]
    · intro k hk
      exact argminQ_le (ddRelSeries pnl b) k (by rw [ddRelSeries_length]; exact hk)
    · intro k hk
      exact argminQ_first (ddRelSeries pnl b) k hk
    · intro k hk
      refine ⟨runningMax_mem_take _ k (by rw [balSeries_length]; exact hk), ?_⟩
      intro j hj
      exact runningMax_dominates _ j k hj (by rw [balSeries_length]; exact hk)
  · simp +decide [ddSeries, balSeries, cumsumQ, cumsumFrom, runningMax, runningMaxFrom]
    norm_num
  · simp +decide [ddRelSeries, ddSeries, balSeries, cumsumQ, cumsumFrom, runningMax,
      runningMaxFrom, argminQ]
    norm_num
  · simp +decide [getPnlStatistics, ddRelSeries, ddSeries, balSeries, cumsumQ, cumsumFrom,
      runningMax, runningMaxFrom, argminQ]
    norm_num
  · simp +decide [getPnlStatistics, ddRelSeries, ddSeries, balSeries, cumsumQ, cumsumFrom,
      runningMax, runningMaxFrom, argminQ]
    norm_num
  · simp +decide [printExecMaxRisk, runningMax, runningMaxFrom, argminQ]
    norm_num

theorem maxlenPick_fst (gs : List (List ℚ)) :
    (maxlenPick gs).1 = (gs.map List.length).foldr max 0 := by
  rw [maxlenPick]
  split_ifs with h
  · subst h; rfl
  · exact idxmaxNat_getD (gs.map List.length)

theorem decide_lt_neg (x : ℚ) (h : x ≠ 0) : decide (x < 0) = !decide (0 < x) := by
  rcases lt_trichotomy x 0 with hlt | heq | hgt
  · simp [hlt, not_lt.mpr (le_of_lt hlt)]
  · exact absurd heq h
  · simp [hgt, not_lt.mpr (le_of_lt hgt)]

theorem groupByKey_neg (l : List ℚ) (h : ∀ x ∈ l, x ≠ 0) :
    groupByKey (fun x => decide (x < 0)) l
      = (groupBySign l).map (fun g => (!g.1, g.2)) := by
  induction l with
  | nil => rfl
  | cons x xs ih =>
      have hx : x ≠ 0 := h x (List.mem_cons_self x xs)
      have hxs : ∀ y ∈ xs, y ≠ 0 := fun y hy => h y (List.mem_cons_of_mem x hy)
      have hstep : groupByKey (fun z => decide (z < 0)) (x :: xs)
          = (match groupByKey (fun z => decide (z < 0)) xs with
            | [] => [(decide (x < 0), [x])]
            | (b, g) :: rest =>
                if decide (x < 0) = b then (b, x :: g) :: rest
                else (decide (x < 0), [x]) :: (b, g) :: rest) := rfl
      have hstep2 : groupBySign (x :: xs)
          = (match groupBySign xs with
            | [] => [(decide (0 < x), [x])]
            | (b, g) :: rest =>
                if decide (0 < x) = b then (b, x :: g) :: rest
                else (decide (0 < x), [x]) :: (b, g) :: rest) := rfl
      rw [hstep, hstep2, ih hxs]
      cases hG : groupBySign xs with
      | nil => simp [decide_lt_neg x hx]
      | cons p rest =>
          obtain ⟨b, g⟩ := p
          simp only [List.map_cons]
          by_cases hb : decide (0 < x) = b
          · rw [if_pos (by rw [decide_lt_neg x hx, hb]), if_pos hb]
            simp
          · rw [if_neg (by rw [decide_lt_neg x hx]; exact fun hc => hb (Bool.not_inj hc)),
              if_neg hb]
            simp [decide_lt_neg x hx]

theorem loseRuns_eq_negRuns (l : List ℚ) (h : ∀ x ∈ l, x ≠ 0) :
    negRuns l = loseRuns l := by
  rw [negRuns, loseRuns, groupByKey_neg l h, List.filter_map, List.map_map]
  rfl

/-- C10 counterexample.  The PnL series [3, 0, 4]: the source filters out
zero entries before grouping, so it reports a longest winning streak of 2,
while the longest run of *consecutive ledger entries* with uniformly
positive PnL (what the claim states) has length 1 - the zero entry breaks
it. -/
theorem C10_counterexample :
    (getPnlStatistics [3, 0, 4] 0).pMaxlenCount = 2
      ∧ specMaxWinStreakLen [3, 0, 4] = 1
      ∧ ¬((getPnlStatistics [3, 0, 4] 0).pMaxlenCount = specMaxWinStreakLen [3, 0, 4]) := by
  have h1 : (getPnlStatistics [3, 0, 4] 0).pMaxlenCount = 2 := by
    simp +decide [getPnlStatistics, winRuns, loseRuns, groupBySign, groupByKey,
      maxlenPick, idxmaxNat]
  have h2 : specMaxWinStreakLen [3, 0, 4] = 1 := by
    simp +decide [specMaxWinStreakLen, winRuns, groupBySign, groupByKey]
  exact ⟨h1, h2, by rw [h1, h2]; omega⟩

/-- C10 amended.  The streak summary reports the length (and summed PnL) of
the longest maximal sign-uniform run of the *zero-filtered* PnL series -
zero entries are skipped rather than breaking a streak - choosing the
first-occurring run on ties: on [5, -2, 3, 4, -1, 6, 7] the winning-streak
summary is (2, 7), the tie between [3, 4] and [6, 7] resolved to the first,
and the losing-streak summary is (1, -2). -/
theorem C10_amended :
    (∀ (pnl : List ℚ) (b : ℚ),
        (getPnlStatistics pnl b).pMaxlenCount
            = specMaxWinStreakLen (pnl.filter (fun x => decide (x ≠ 0)))
          ∧ (getPnlStatistics pnl b).lMaxlenCount
            = specMaxLossStreakLen (pnl.filter (fun x => decide (x ≠ 0))))
      ∧ (getPnlStatistics [5, -2, 3, 4, -1, 6, 7] 0).pMaxlenCount = 2
      ∧ (getPnlStatistics [5, -2, 3, 4, -1, 6, 7] 0).pMaxlenSum = 7
      ∧ (getPnlStatistics [5, -2, 3, 4, -1, 6, 7] 0).lMaxlenCount = 1
      ∧ (getPnlStatistics [5, -2, 3, 4, -1, 6, 7] 0).lMaxlenSum = -2 := by
  have hnz : ∀ (pnl : List ℚ), ∀ x ∈ pnl.filter (fun x => decide (x ≠ 0)), x ≠ 0 := by
    intro pnl x hx
    have := List.of_mem_filter hx
    simpa using this
  refine ⟨?_, ?_, ?_, ?_, ?_⟩
  · intro pnl b
    by_cases h : pnl = []
    · subst h
      simp [getPnlStatistics, specMaxWinStreakLen, specMaxLossStreakLen, winRuns,
        negRuns, groupBySign, groupByKey]
    · constructor
      · simp only [getPnlStatistics, if_neg h]
        rw [maxlenPick_fst]
        rfl
      · simp only [getPnlStatistics, if_neg h]
        rw [maxlenPick_fst, specMaxLossStreakLen,
          loseRuns_eq_negRuns _ (hnz pnl)]
  · simp +decide [getPnlStatistics, winRuns, loseRuns, groupBySign, groupByKey,
      maxlenPick, idxmaxNat]
  · simp +decide [getPnlStatistics, winRuns, loseRuns, groupBySign, groupByKey,
      maxlenPick, idxmaxNat]
    norm_num
  · simp +decide [getPnlStatistics, winRuns, loseRuns, groupBySign, groupByKey,
      maxlenPick, idxmaxNat]
  · simp +decide [getPnlStatistics, winRuns, loseRuns, groupBySign, groupByKey,
      maxlenPick, idxmaxNat]

/-- Witness for C9: the general theorem applied to the example list at
index 2, discharging the bound hypotheses there. -/
theorem C9_amended_witness :
    (2 < 4 ∧ (ddSeries [100, 20, -30, 40] 0).getD 2 0 ≤ 0)
      ∧ (getPnlStatistics [100, 20, -30, 40] 0).maxdd
        = (ddSeries [100, 20, -30, 40] 0).getD (argminQ (ddRelSeries [100, 20, -30, 40] 0)) 0 :=
  ⟨⟨by norm_num, ((C9_amended.1 [100, 20, -30, 40] 0).1 2 (by norm_num))⟩,
    (C9_amended.1 [100, 20, -30, 40] 0).2.1⟩

end DataUtility
